import Mathlib

/-
Verification of the hippiehug verifiable skip-chain
(`hippiehug/Chain.py`, `hippiehug/Store.py`, `hippiehug/Utils.py`).

Shallow embedding notes:

* Python integers are modelled by `Int` (Python `%` on a positive modulus
  agrees with `Int.emod`).
* The block codec (`serialize`/`deserialize`) is abstract in the source
  (`BaseBlock.serialize` raises `NotImplementedError`); the spec requires it
  to be a canonical, injective encoding of `(index, payload, fingers)`.
  It is modelled by the inductive `Bytes` below.
* The hash (`sha256` + hex in `Utils.py`) is modelled as an ideal injective
  hash: `ascii_hash` is the identity on `Bytes`.  Every property of the hash
  the code relies on (determinism and collision-freeness) holds for this
  ideal model; no other property of sha256 is used by the code.
* Python dictionaries (block cache, store backend) are modelled as
  association lists where insertion prepends and lookup takes the first
  matching key, which realises overwrite-on-insert semantics.
* The `while` loop of `Chain.get_block_by_index` is modelled by a
  step-counter (`fuel`) recursion; exhausting the counter is reported by the
  distinguished outcome `ChainErr.fuel`, so termination statements say that a
  sufficiently large counter never reaches it.
* Python exceptions are modelled with `Except ChainErr`.
-/

set_option maxRecDepth 16000

namespace Hippiehug

/-- Block payload: opaque application data, `None` by default. -/
abbrev Payload := Option String

/-- Modelled from the spec: canonical serialized form of a block (section 6
block codec contract), i.e. an injective encoding of
`(index, payload, fingers)`; `raw` stands for arbitrary non-block bytes
(used to model tampered store contents). -/
inductive Bytes where
  | blk (index : Int) (payload : Payload) (fingers : List (Int × Bytes)) : Bytes
  | raw (s : String) : Bytes

mutual

def Bytes.decEq : (a b : Bytes) → Decidable (a = b)
  | .blk i p f, .blk i' p' f' =>
    if hi : i = i' then
      if hp : p = p' then
        match Bytes.decEqFingers f f' with
        | isFalse h => isFalse (by intro he; cases he; exact h rfl)
        | isTrue hf => isTrue (by rw [hi, hp, hf])
      else isFalse (by intro he; cases he; exact hp rfl)
    else isFalse (by intro he; cases he; exact hi rfl)
  | .blk _ _ _, .raw _ => isFalse (by intro h; cases h)
  | .raw _, .blk _ _ _ => isFalse (by intro h; cases h)
  | .raw s, .raw s' =>
    if hs : s = s' then isTrue (by rw [hs])
    else isFalse (by intro he; cases he; exact hs rfl)

def Bytes.decEqFingers : (a b : List (Int × Bytes)) → Decidable (a = b)
  | [], [] => isTrue rfl
  | [], _ :: _ => isFalse (by intro h; cases h)
  | _ :: _, [] => isFalse (by intro h; cases h)
  | (i, x) :: xs, (j, y) :: ys =>
    if hij : i = j then
      match Bytes.decEq x y with
      | isFalse h => isFalse (by intro he; cases he; exact h rfl)
      | isTrue hxy =>
        match Bytes.decEqFingers xs ys with
        | isFalse h => isFalse (by intro he; cases he; exact h rfl)
        | isTrue hrest => isTrue (by rw [hij, hxy, hrest])
    else isFalse (by intro he; cases he; exact hij rfl)

end

instance : DecidableEq Bytes := Bytes.decEq

/-- Hashes, as used for store keys, chain heads and finger targets.  With the
ideal injective hash model a hash carries exactly the hashed content. -/
abbrev Hash := Bytes

/-- Modelled from the spec: `Utils.ascii_hash` (sha256 digest, hex-encoded) as
an ideal injective hash, i.e. the identity embedding of the hashed bytes. -/
def ascii_hash (item : Bytes) : Hash := item

/-- Errors: models the Python exceptions raised by the code, plus the
modelling artifact `fuel` marking exhaustion of the loop step counter. -/
inductive ChainErr where
  /-- `IntegrityValidationError` from `Utils.check_hash`. -/
  | integrity : ChainErr
  /-- `ValueError` from the range check in `Chain.get_block_by_index`. -/
  | range : ChainErr
  /-- `ValueError('Chain undefined.')` from `BaseBlock.commit`. -/
  | chainUndefined : ChainErr
  /-- `IndexError` from `[...][0]` on an empty finger selection. -/
  | indexError : ChainErr
  /-- `AttributeError` from `None.index` when the head block is unresolvable. -/
  | attributeError : ChainErr
  /-- Failure of the caller-supplied `deserialize` on non-block bytes. -/
  | deserializeError : ChainErr
  /-- Modelling artifact: loop step counter exhausted. -/
  | fuel : ChainErr
deriving DecidableEq

/-- `Utils.check_hash(hsh, item)`: raise `IntegrityValidationError` when
`hsh != ascii_hash(item)`. -/
def check_hash (hsh : Hash) (item : Bytes) : Except ChainErr Unit :=
  if hsh ≠ ascii_hash item then .error .integrity else .ok ()

/-- Python dict backend of `DictionaryStore`, as an association list. -/
abbrev StoreBackend := List (Hash × Bytes)

/-- Python `dict.get` / `dict.__getitem__`-with-default-None: first entry with
a matching key, `none` when the key is absent. -/
def alist_get {β : Type} (k : Hash) : List (Hash × β) → Option β
  | [] => none
  | (k', v) :: rest => if k = k' then some v else alist_get k rest

namespace DictionaryStore

/-- `DictionaryStore.get(obj_hash, check_integrity)`: fetch from the backend;
when present and `check_integrity`, run `check_hash` before returning. -/
def get (st : StoreBackend) (obj_hash : Hash) (check_integrity : Bool) :
    Except ChainErr (Option Bytes) :=
  match alist_get obj_hash st with
  | none => .ok none
  | some serialized_obj =>
    if check_integrity then
      match check_hash obj_hash serialized_obj with
      | .error e => .error e
      | .ok _ => .ok (some serialized_obj)
    else .ok (some serialized_obj)

/-- `DictionaryStore.put(serialized_obj)`: store the bytes under their own
hash (`self._backend[obj_hash] = serialized_obj`). -/
def put (st : StoreBackend) (serialized_obj : Bytes) : StoreBackend :=
  (ascii_hash serialized_obj, serialized_obj) :: st

end DictionaryStore

/-- A block (`BaseBlock`): sequence index, payload and skip-list fingers.
The `_chain` back-reference is modelled separately (see `Block.commit`),
since in the source it is only consulted by `commit`. -/
structure Block where
  index : Int
  payload : Payload
  fingers : List (Int × Hash)
deriving DecidableEq

namespace Block

/-- Modelled from the spec: the canonical codec (`serialize`) of a concrete
block class, encoding exactly `(index, payload, fingers)`. -/
def serialize (b : Block) : Bytes := .blk b.index b.payload b.fingers

/-- Modelled from the spec: `deserialize`, the inverse of `serialize`;
non-block bytes do not decode. -/
def deserialize : Bytes → Option Block
  | .blk i p f => some { index := i, payload := p, fingers := f }
  | .raw _ => none

/-- `BaseBlock.hid`: hash of the serialization, recomputed on access. -/
def hid (b : Block) : Hash := ascii_hash b.serialize

/-- `BaseBlock.skipchain_indices(index)`: finger indices for the given index,
`set(index - 1 - ((index - 1) % (2**f)) for f in range(64))`. -/
def skipchain_indices (index : Int) : Finset Int :=
  (Finset.range 64).image (fun f => index - 1 - ((index - 1) % ((2 : Int) ^ f)))

/-- `BaseBlock.make_next_block(current_block)`: build the empty successor
block with prefilled index and fingers (payload is added by the caller
before the commit). -/
def make_next_block (current_block : Option Block) : Block :=
  match current_block with
  | none => { index := 0, payload := none, fingers := [] }
  | some current =>
    let new_index := current.index + 1
    let finger_index := skipchain_indices new_index
    let newfingers := (current.index, current.hid) ::
      current.fingers.filter (fun f => decide (f.1 ∈ finger_index))
    { index := new_index, payload := none, fingers := newfingers }

/-- `BaseBlock.pre_commit`: the base hook does nothing. -/
def pre_commit (b : Block) : Block := b

end Block

/-- Result of `Chain.get_block_by_index`: Python returns `None`, a block, or
a `(block, evidence)` pair depending on the path taken. -/
inductive LookupOut where
  | absent : LookupOut
  | found (b : Block) : LookupOut
  | foundEv (b : Block) (evidence : List (Hash × Block)) : LookupOut
deriving DecidableEq

/-- The chain (`Chain`): store backend, trusted cache and head hash.  The
block class is fixed to the single codec modelled above. -/
structure Chain where
  object_store : StoreBackend
  cache : List (Hash × Block)
  head : Option Hash
deriving DecidableEq

namespace Chain

/-- `Chain.commit_block(block)`: set the head, cache the block, and put its
serialization into the object store. -/
def commit_block (c : Chain) (block : Block) : Chain :=
  { c with
    head := some block.hid
    cache := (block.hid, block) :: c.cache
    object_store := DictionaryStore.put c.object_store block.serialize }

/-- `Chain.get_block_by_hid(hid)`: cached blocks are returned unchecked;
otherwise fetch from the store with integrity checking, deserialize, and
cache the result.  Returns the (possibly grown) chain state. -/
def get_block_by_hid (c : Chain) (hid : Hash) :
    Except ChainErr (Option Block × Chain) :=
  match alist_get hid c.cache with
  | some b => .ok (some b, c)
  | none =>
    match DictionaryStore.get c.object_store hid true with
    | .error e => .error e
    | .ok none => .ok (none, c)
    | .ok (some raw_block) =>
      match Block.deserialize raw_block with
      | none => .error .deserializeError
      | some block => .ok (some block, { c with cache := (hid, block) :: c.cache })

/-- `Chain.head_block`: resolve the head hash; a `None` head resolves to no
block (a `None` key misses both the cache and the dict backend). -/
def head_block (c : Chain) : Except ChainErr (Option Block × Chain) :=
  match c.head with
  | none => .ok (none, c)
  | some h => c.get_block_by_hid h

/-- The `while current_block is not None` loop of `Chain.get_block_by_index`:
record evidence, stop when the index matches, otherwise follow the first
finger whose target is at least the wanted index
(`[(f, h) for (f, h) in current_block.fingers if f >= index][0]`).
`fuel` bounds the number of iterations (modelling artifact). -/
def getLoop : Nat → Chain → Int → Bool → Hash → Option Block →
    List (Hash × Block) → Except ChainErr (LookupOut × Chain)
  | _, c, _, _, _, none, _ => .ok (.absent, c)
  | 0, _, _, _, _, some _, _ => .error .fuel
  | fuel + 1, c, index, return_evidence, hid, some current_block, evidence =>
    let evidence' := if return_evidence then evidence ++ [(hid, current_block)]
      else evidence
    if index = current_block.index then
      .ok ((if return_evidence then .foundEv current_block evidence'
            else .found current_block), c)
    else
      match current_block.fingers.filter (fun fh => decide (index ≤ fh.1)) with
      | [] => .error .indexError
      | (_, h) :: _ =>
        match c.get_block_by_hid h with
        | .error e => .error e
        | .ok (next, c') => getLoop fuel c' index return_evidence h next evidence'

/-- `Chain.get_block_by_index(index, return_evidence)`.  An absent head
returns `None` immediately.  The Python chained comparison
`0 <= index <= self.head_block.index` short-circuits, so `head_block` is only
resolved once `0 <= index` holds; it is then resolved a second time to start
the walk (`current_block = self.head_block`). -/
def get_block_by_index (c : Chain) (index : Int) (return_evidence : Bool)
    (fuel : Nat) : Except ChainErr (LookupOut × Chain) :=
  match c.head with
  | none => .ok (.absent, c)
  | some h =>
    if 0 ≤ index then
      match c.head_block with
      | .error e => .error e
      | .ok (none, _) => .error .attributeError
      | .ok (some hb, c1) =>
        if index ≤ hb.index then
          match c1.head_block with
          | .error e => .error e
          | .ok (current_block, c2) =>
            getLoop fuel c2 index return_evidence h current_block []
        else .error .range
    else .error .range

/-- `Chain.make_next_block()`: delegate to the block factory with the current
head block as predecessor (the `_chain=self` association is modelled at
commit time). -/
def make_next_block (c : Chain) : Except ChainErr (Block × Chain) :=
  match c.head_block with
  | .error e => .error e
  | .ok (hb, c') => .ok (Block.make_next_block hb, c')

end Chain

/-- `BaseBlock.commit()`: `ValueError` when no chain is associated, otherwise
run the `pre_commit` hook and delegate to `Chain.commit_block`.  The `_chain`
back-reference is passed explicitly as an `Option Chain`. -/
def Block.commit (b : Block) (chain : Option Chain) : Except ChainErr Chain :=
  match chain with
  | none => .error .chainUndefined
  | some c => .ok (c.commit_block b.pre_commit)

/-- A chain with no committed blocks, fresh store and cache. -/
def emptyChain : Chain := { object_store := [], cache := [], head := none }

/-- Set the payload of a pending block (`block.payload = ...` before the
commit, as in the tests' build loop). -/
def setPayload (b : Block) (p : Payload) : Block := { b with payload := p }

/-- Build a chain by committing `n` blocks in order, exactly as the source's
build loop does: ask the chain for the next block, fill in the payload
(`pl k` for the block at index `k`), and commit it onto the chain. -/
def buildChain (pl : Nat → Payload) : Nat → Except ChainErr Chain
  | 0 => .ok emptyChain
  | n + 1 =>
    match buildChain pl n with
    | .error e => .error e
    | .ok c =>
      match c.make_next_block with
      | .error e => .error e
      | .ok (b, c1) => (setPayload b (pl n)).commit (some c1)

/-! Closed-form description of the chain produced by `buildChain`, used to
state and prove the build invariants. -/

/-- The block committed at position `k` of a chain built with payloads `pl`:
block `0` is the genesis block, block `k + 1` is derived from block `k` by
the factory, each with its payload filled in before the commit. -/
def chainBlocks (pl : Nat → Payload) : Nat → Block
  | 0 => setPayload (Block.make_next_block none) (pl 0)
  | k + 1 => setPayload (Block.make_next_block (some (chainBlocks pl k))) (pl (k + 1))

/-- Cache contents after committing `n` blocks (most recent first). -/
def chainCache (pl : Nat → Payload) : Nat → List (Hash × Block)
  | 0 => []
  | n + 1 => ((chainBlocks pl n).hid, chainBlocks pl n) :: chainCache pl n

/-- Store contents after committing `n` blocks. -/
def chainStore (pl : Nat → Payload) : Nat → StoreBackend
  | 0 => []
  | n + 1 => DictionaryStore.put (chainStore pl n) (chainBlocks pl n).serialize

/-- Head block after committing `n` blocks, if any. -/
def chainHead (pl : Nat → Payload) : Nat → Option Hash
  | 0 => none
  | n + 1 => some (chainBlocks pl n).hid

/-- The full chain state after committing `n` blocks. -/
def chainOf (pl : Nat → Payload) (n : Nat) : Chain :=
  { object_store := chainStore pl n, cache := chainCache pl n,
    head := chainHead pl n }

theorem chainBlocks_index (pl : Nat → Payload) :
    ∀ k, (chainBlocks pl k).index = (k : Int) := by
  intro k
  induction k with
  | zero => rfl
  | succ k ih =>
    simp only [chainBlocks, setPayload, Block.make_next_block, ih]
    push_cast
    ring

theorem chainBlocks_fingers (pl : Nat → Payload) (k : Nat) :
    (chainBlocks pl (k + 1)).fingers =
      ((k : Int), (chainBlocks pl k).hid) ::
        (chainBlocks pl k).fingers.filter
          (fun f => decide (f.1 ∈ Block.skipchain_indices ((k : Int) + 1))) := by
  simp only [chainBlocks, setPayload, Block.make_next_block, chainBlocks_index]

theorem chainBlocks_hid_inj (pl : Nat → Payload) {j k : Nat}
    (h : (chainBlocks pl j).hid = (chainBlocks pl k).hid) : j = k := by
  have hidx : (chainBlocks pl j).index = (chainBlocks pl k).index := by
    have := congrArg (fun b => match b with | Bytes.blk i _ _ => i | Bytes.raw _ => 0) h
    simpa [Block.hid, ascii_hash, Block.serialize] using this
  rw [chainBlocks_index, chainBlocks_index] at hidx
  exact_mod_cast hidx

theorem chainCache_lookup (pl : Nat → Payload) {k n : Nat} (hk : k < n) :
    alist_get (chainBlocks pl k).hid (chainCache pl n) =
      some (chainBlocks pl k) := by
  induction n with
  | zero => omega
  | succ n ih =>
    by_cases hkn : k = n
    · subst hkn
      simp [chainCache, alist_get]
    · have hk' : k < n := by omega
      have hne : (chainBlocks pl k).hid ≠ (chainBlocks pl n).hid := by
        intro h; exact hkn (chainBlocks_hid_inj pl h)
      simp [chainCache, alist_get, hne, ih hk']

theorem chainStore_lookup (pl : Nat → Payload) {k n : Nat} (hk : k < n) :
    alist_get (chainBlocks pl k).hid (chainStore pl n) =
      some (chainBlocks pl k).serialize := by
  induction n with
  | zero => omega
  | succ n ih =>
    by_cases hkn : k = n
    · subst hkn
      simp [chainStore, DictionaryStore.put, alist_get, Block.hid]
    · have hk' : k < n := by omega
      have hne : (chainBlocks pl k).hid ≠ (chainBlocks pl n).hid := by
        intro h; exact hkn (chainBlocks_hid_inj pl h)
      have hne' : (chainBlocks pl k).hid ≠ ascii_hash (chainBlocks pl n).serialize := hne
      simp [chainStore, DictionaryStore.put, alist_get, hne', ih hk']

/-- The head block of a non-empty built chain is a cache hit and leaves the
chain untouched. -/
theorem head_block_chainOf (pl : Nat → Payload) (n : Nat) :
    (chainOf pl (n + 1)).head_block =
      .ok (some (chainBlocks pl n), chainOf pl (n + 1)) := by
  simp [Chain.head_block, chainOf, chainHead, Chain.get_block_by_hid,
    chainCache_lookup pl (Nat.lt_succ_self n)]

/-- Building a chain by the source's operations never fails and produces
exactly the closed-form state `chainOf`. -/
theorem buildChain_eq (pl : Nat → Payload) (n : Nat) :
    buildChain pl n = .ok (chainOf pl n) := by
  induction n with
  | zero => rfl
  | succ n ih =>
    cases n with
    | zero => rfl
    | succ m =>
      have hcommit : (chainOf pl (m + 1)).commit_block (chainBlocks pl (m + 1)) =
          chainOf pl (m + 2) := by
        simp [Chain.commit_block, chainOf, chainCache, chainStore, chainHead]
      have hstep : setPayload (Block.make_next_block (some (chainBlocks pl m)))
          (pl (m + 1)) = chainBlocks pl (m + 1) := rfl
      rw [buildChain, ih]
      simp [Chain.make_next_block, head_block_chainOf, Block.commit,
        Block.pre_commit, hstep, hcommit]

/-- Result shape of `get_block_by_index`: a bare block, or a block paired
with the evidence accumulated so far, depending on `return_evidence`. -/
def mkOut (re : Bool) (b : Block) (ev : List (Hash × Block)) : LookupOut :=
  if re then .foundEv b ev else .found b

/-- The evidence segment recorded while walking from block `t + d` down to
block `t` of a built chain, in visitation order. -/
def evSeg (pl : Nat → Payload) (t : Nat) : Nat → List (Hash × Block)
  | 0 => [((chainBlocks pl t).hid, chainBlocks pl t)]
  | d + 1 => ((chainBlocks pl (t + d + 1)).hid, chainBlocks pl (t + d + 1)) ::
      evSeg pl t d

/-- Generic run of the traversal loop over the blocks of a built chain: if
every hash of a built block resolves to that block (with the chain state
evolving inside an invariant `P`), then the loop walks from block `t + d`
down one index per hop, terminates at block `t`, and records the evidence
segment. -/
theorem getLoop_run (pl : Nat → Payload) (P : Chain → Prop) (t hi : Nat)
    (hfetch : ∀ cc j, P cc → t ≤ j → j < hi →
      ∃ cc', cc.get_block_by_hid (chainBlocks pl j).hid =
          .ok (some (chainBlocks pl j), cc') ∧ P cc') :
    ∀ d : Nat, t + d ≤ hi →
      ∀ (cc : Chain) (re : Bool) (ev : List (Hash × Block)) (fuel : Nat),
        P cc → d < fuel →
        ∃ cc', Chain.getLoop fuel cc (t : Int) re (chainBlocks pl (t + d)).hid
            (some (chainBlocks pl (t + d))) ev =
          .ok (mkOut re (chainBlocks pl t) (ev ++ evSeg pl t d), cc') ∧ P cc' := by
  intro d
  induction d with
  | zero =>
    intro hhi cc re ev fuel hP hfuel
    obtain ⟨f, rfl⟩ : ∃ f, fuel = f + 1 := ⟨fuel - 1, by omega⟩
    refine ⟨cc, ?_, hP⟩
    simp only [Nat.add_zero, Chain.getLoop]
    rw [chainBlocks_index pl t, if_pos rfl]
    cases re <;> simp [mkOut, evSeg]
  | succ d ih =>
    intro hhi cc re ev fuel hP hfuel
    obtain ⟨f, rfl⟩ : ∃ f, fuel = f + 1 := ⟨fuel - 1, by omega⟩
    have hne : (t : Int) ≠ (chainBlocks pl (t + d + 1)).index := by
      rw [chainBlocks_index]
      intro h
      have : t = t + d + 1 := by exact_mod_cast h
      omega
    have hsel : (chainBlocks pl (t + d + 1)).fingers.filter
        (fun fh => decide ((t : Int) ≤ fh.1)) =
        (((t + d : Nat) : Int), (chainBlocks pl (t + d)).hid) ::
          ((chainBlocks pl (t + d)).fingers.filter
              (fun f => decide (f.1 ∈ Block.skipchain_indices (((t + d : Nat) : Int) + 1)))).filter
            (fun fh => decide ((t : Int) ≤ fh.1)) := by
      rw [chainBlocks_fingers pl (t + d)]
      rw [List.filter_cons]
      simp only [decide_eq_true_eq]
      rw [if_pos (by exact_mod_cast Nat.le_add_right t d)]
    obtain ⟨cc1, hfetch1, hP1⟩ := hfetch cc (t + d) hP (Nat.le_add_right t d) (by omega)
    obtain ⟨cc', hrec, hP'⟩ := ih (by omega) cc1 re
      (if re then ev ++ [((chainBlocks pl (t + d + 1)).hid, chainBlocks pl (t + d + 1))]
       else ev) f hP1 (by omega)
    refine ⟨cc', ?_, hP'⟩
    simp only [Chain.getLoop, ← Nat.add_assoc]
    rw [if_neg hne, hsel]
    simp only []
    rw [hfetch1]
    simp only []
    rw [hrec]
    cases re <;> simp [mkOut, evSeg]


/-- Full behaviour of `get_block_by_index` on a chain built by committing
`N` blocks, at any valid index: the walk succeeds, returns the committed
block at that index, records the evidence of all visited blocks, and leaves
the chain state unchanged (every access is a cache hit). -/
theorem get_block_by_index_chainOf (pl : Nat → Payload) {N i : Nat}
    (hiN : i < N) (re : Bool) {fuel : Nat} (hfuel : N ≤ fuel) :
    (chainOf pl N).get_block_by_index (i : Int) re fuel =
      .ok (mkOut re (chainBlocks pl i) (evSeg pl i (N - 1 - i)), chainOf pl N) := by
  obtain ⟨m, rfl⟩ : ∃ m, N = m + 1 := ⟨N - 1, by omega⟩
  have hfetch : ∀ cc j, cc = chainOf pl (m + 1) → i ≤ j → j < m + 1 →
      ∃ cc', cc.get_block_by_hid (chainBlocks pl j).hid =
        .ok (some (chainBlocks pl j), cc') ∧ cc = chainOf pl (m + 1) := by
    intro cc j hcc _ hlt
    subst hcc
    exact ⟨chainOf pl (m + 1), by
      simp [Chain.get_block_by_hid, chainOf, chainCache_lookup pl hlt], rfl⟩
  have hfetch' : ∀ cc j, cc = chainOf pl (m + 1) → i ≤ j → j < m + 1 →
      ∃ cc', cc.get_block_by_hid (chainBlocks pl j).hid =
        .ok (some (chainBlocks pl j), cc') ∧ cc' = chainOf pl (m + 1) := by
    intro cc j hcc hle hlt
    obtain ⟨cc', heq, _⟩ := hfetch cc j hcc hle hlt
    subst hcc
    refine ⟨chainOf pl (m + 1), ?_, rfl⟩
    simp [Chain.get_block_by_hid, chainOf, chainCache_lookup pl hlt]
  obtain ⟨cc', hrun, hcc'⟩ := getLoop_run pl (fun cc => cc = chainOf pl (m + 1))
    i (m + 1) hfetch' (m - i) (by omega) (chainOf pl (m + 1)) re [] fuel rfl
    (by omega)
  have him : i + (m - i) = m := by omega
  rw [him] at hrun
  subst hcc'
  simp only [Chain.get_block_by_index, chainOf, chainHead]
  rw [if_pos (Int.ofNat_nonneg i)]
  have hh : (chainOf pl (m + 1)).head_block =
      .ok (some (chainBlocks pl m), chainOf pl (m + 1)) := head_block_chainOf pl m
  simp only [chainOf, chainHead] at hh
  rw [hh]
  simp only []
  rw [chainBlocks_index pl m, if_pos (by exact_mod_cast Nat.le_of_lt_succ hiN)]
  rw [hh]
  simp only []
  simp only [chainOf, chainHead] at hrun
  rw [hrun]
  simp

/-- The level-0 entry of the skip set: the immediate predecessor index. -/
theorem skipchain_self_mem (index : Int) :
    index - 1 ∈ Block.skipchain_indices index := by
  rw [Block.skipchain_indices, Finset.mem_image]
  exact ⟨0, Finset.mem_range.mpr (by omega), by simp⟩

/-- The modelled codec is a round trip, as the spec's codec contract demands. -/
theorem deserialize_serialize (b : Block) :
    Block.deserialize b.serialize = some b := rfl

/-- Concrete payloads used to instantiate the hypotheses of the claims. -/
def plW : Nat → Payload := fun k => some (toString k)

/-- C1: for every chain built by committing `N` blocks in order (each created
via `make_next_block` and committed), and every `0 ≤ i < N`,
`get_block_by_index(i)` returns a block whose `index` field equals `i`. -/
theorem C1_lookup_by_index_has_index (pl : Nat → Payload) (N i : Nat)
    (c : Chain) (hc : buildChain pl N = .ok c) (hiN : i < N) :
    ∃ b c', c.get_block_by_index (i : Int) false (N + 1) =
        .ok (.found b, c') ∧ b.index = (i : Int) := by
  obtain rfl : chainOf pl N = c := by
    rw [buildChain_eq] at hc; exact Except.ok.inj hc
  refine ⟨chainBlocks pl i, chainOf pl N, ?_, chainBlocks_index pl i⟩
  have h := get_block_by_index_chainOf pl hiN false (Nat.le_succ N)
  simpa [mkOut] using h

theorem C1_witness :
    (buildChain plW 3 = .ok (chainOf plW 3)) ∧ 1 < 3 ∧
    ∃ b c', (chainOf plW 3).get_block_by_index ((1 : Nat) : Int) false (3 + 1) =
        .ok (.found b, c') ∧ b.index = ((1 : Nat) : Int) :=
  ⟨buildChain_eq plW 3, by omega,
    C1_lookup_by_index_has_index plW 3 1 (chainOf plW 3) (buildChain_eq plW 3)
      (by omega)⟩

/-- C4: `make_next_block` with a present predecessor produces a block of
index `current.index + 1` whose finger list starts with
`(current.index, current.hid)` followed by exactly the fingers of
`current.fingers` whose target index lies in
`skipchain_indices(current.index + 1)`, in their original relative order
(`List.filter` preserves relative order). -/
theorem C4_make_next_block_fingers (current : Block) :
    (Block.make_next_block (some current)).index = current.index + 1 ∧
    (Block.make_next_block (some current)).fingers =
      (current.index, current.hid) ::
        current.fingers.filter
          (fun f => decide (f.1 ∈ Block.skipchain_indices (current.index + 1))) :=
  ⟨rfl, rfl⟩

/-- C5: `skipchain_indices(index)` is exactly the image set
`{ (index-1) - ((index-1) mod 2^f) : f = 0..63 }`, and its `f = 0` term is
`index - 1`, the immediate predecessor, which is therefore a member. -/
theorem C5_skipchain_indices_formula (index : Int) :
    Block.skipchain_indices index =
      (Finset.range 64).image
        (fun f => index - 1 - ((index - 1) % ((2 : Int) ^ f))) ∧
    index - 1 - ((index - 1) % ((2 : Int) ^ (0 : Nat))) = index - 1 ∧
    index - 1 ∈ Block.skipchain_indices index :=
  ⟨rfl, by simp, skipchain_self_mem index⟩

/-- C9: `commit()` fails with the configuration error exactly when no chain
is associated; with an associated chain it runs the `pre_commit` hook and
delegates to the chain's `commit_block` on the block itself. -/
theorem C9_commit_requires_chain (b : Block) :
    (∀ chain : Option Chain,
      b.commit chain = .error .chainUndefined ↔ chain = none) ∧
    ∀ c : Chain, b.commit (some c) = .ok (c.commit_block b.pre_commit) := by
  refine ⟨fun chain => ?_, fun c => rfl⟩
  cases chain <;> simp [Block.commit]

/-- C8: `DictionaryStore.get` with integrity checking returns absent without
error on an unknown key, errors exactly when the stored bytes do not hash to
the key, and hence any store in which the bytes under `ascii_hash orig` were
replaced by different bytes raises the integrity error on a checked fetch. -/
theorem C8_store_tamper_detection (st : StoreBackend) (k : Hash) :
    (alist_get k st = none → DictionaryStore.get st k true = .ok none) ∧
    (∀ b, alist_get k st = some b →
      (DictionaryStore.get st k true = .error .integrity ↔ ascii_hash b ≠ k)) ∧
    (∀ orig tampered : Bytes, orig ≠ tampered →
      alist_get (ascii_hash orig) st = some tampered →
      DictionaryStore.get st (ascii_hash orig) true = .error .integrity) := by
  refine ⟨fun h => by simp [DictionaryStore.get, h], fun b hb => ?_, ?_⟩
  · by_cases hkb : k = ascii_hash b
    · subst hkb
      simp [DictionaryStore.get, hb, check_hash, ascii_hash]
    · have hkb' : ascii_hash b ≠ k := fun h => hkb h.symm
      simp [DictionaryStore.get, hb, check_hash, hkb, hkb']
  · intro orig tampered hne hlook
    have hne' : ascii_hash orig ≠ ascii_hash tampered := hne
    simp [DictionaryStore.get, hlook, check_hash, hne']

theorem C8_witness :
    (alist_get (ascii_hash (Bytes.raw "a"))
        [(ascii_hash (Bytes.raw "a"), Bytes.raw "b")] = some (Bytes.raw "b")) ∧
    Bytes.raw "a" ≠ Bytes.raw "b" ∧
    DictionaryStore.get [(ascii_hash (Bytes.raw "a"), Bytes.raw "b")]
        (ascii_hash (Bytes.raw "a")) true = .error .integrity :=
  ⟨by simp [alist_get], by decide,
    (C8_store_tamper_detection [(ascii_hash (Bytes.raw "a"), Bytes.raw "b")]
        (ascii_hash (Bytes.raw "a"))).2.2 (Bytes.raw "a") (Bytes.raw "b")
      (by decide) (by simp [alist_get])⟩

/-- C10: for `index ≥ 1` every member of `skipchain_indices(index)` lies in
`[0, index - 1]` and `index - 1` is a member; for `index = 0` the set is the
64 negative values `{ -2^f : f = 0..63 }` (Python's mod of `-1` by `2^f` is
`2^f - 1`), and these unreachable indices are harmless only because
`make_next_block` bypasses the finger computation for the genesis block. -/
theorem C10_skipchain_bounds_and_genesis :
    (∀ index : Int, 1 ≤ index →
      (index - 1 ∈ Block.skipchain_indices index ∧
        ∀ x ∈ Block.skipchain_indices index, 0 ≤ x ∧ x ≤ index - 1)) ∧
    Block.skipchain_indices 0 =
      (Finset.range 64).image (fun f => -((2 : Int) ^ f)) ∧
    Block.make_next_block none =
      { index := 0, payload := none, fingers := [] } := by
  refine ⟨fun index hidx => ⟨skipchain_self_mem index, ?_⟩, by decide, rfl⟩
  intro x hx
  rw [Block.skipchain_indices, Finset.mem_image] at hx
  obtain ⟨f, _, rfl⟩ := hx
  have ha : (0 : Int) ≤ index - 1 := by omega
  have hb : (0 : Int) < (2 : Int) ^ f := by positivity
  have h1 : (0 : Int) ≤ (index - 1) % ((2 : Int) ^ f) :=
    Int.emod_nonneg _ (by positivity)
  have h2 : (2 : Int) ^ f * ((index - 1) / ((2 : Int) ^ f)) +
      (index - 1) % ((2 : Int) ^ f) = index - 1 := Int.ediv_add_emod _ _
  have h3 : (0 : Int) ≤ (index - 1) / ((2 : Int) ^ f) := Int.ediv_nonneg ha hb.le
  have h4 : (0 : Int) ≤ (2 : Int) ^ f * ((index - 1) / ((2 : Int) ^ f)) :=
    mul_nonneg hb.le h3
  constructor <;> linarith

theorem C10_witness :
    (1 : Int) ≤ 5 ∧ (4 : Int) ∈ Block.skipchain_indices 5 :=
  ⟨by omega, by
    have h := (C10_skipchain_bounds_and_genesis.1 5 (by omega)).1
    norm_num at h
    exact h⟩

/-- C2 counterexample: on an empty chain (zero committed blocks),
`get_block_by_index(0)` does not raise a range error — the code returns
`None` as soon as the head is absent (`if self.head is None: return None`). -/
theorem C2_counterexample_empty_chain :
    buildChain (fun _ => none) 0 = .ok emptyChain ∧
    emptyChain.get_block_by_index 0 false 1 = .ok (.absent, emptyChain) ∧
    emptyChain.get_block_by_index 0 false 1 ≠ .error .range :=
  ⟨rfl, rfl, fun h => Except.noConfusion h⟩

/-- C2 (amended): on a non-empty chain of `N` committed blocks,
`get_block_by_index` raises the range error for every index outside
`[0, head_block.index]` (in particular for `-1` and `N`); on an empty chain
it instead returns `None` for every index, without error. -/
theorem C2_range_error_behavior (pl : Nat → Payload) (N : Nat) (c : Chain)
    (hc : buildChain pl N = .ok c) (index : Int) :
    (0 < N → (index < 0 ∨ (N : Int) ≤ index) →
      c.get_block_by_index index false (N + 1) = .error .range) ∧
    (N = 0 → c.get_block_by_index index false (N + 1) = .ok (.absent, c)) := by
  obtain rfl : chainOf pl N = c := by
    rw [buildChain_eq] at hc; exact Except.ok.inj hc
  constructor
  · intro hN hout
    obtain ⟨m, rfl⟩ : ∃ m, N = m + 1 := ⟨N - 1, by omega⟩
    simp only [Chain.get_block_by_index, chainOf, chainHead]
    rcases hout with hneg | hbig
    · rw [if_neg (by omega)]
    · rw [if_pos (by omega)]
      have hh := head_block_chainOf pl m
      simp only [chainOf, chainHead] at hh
      rw [hh]
      simp only []
      rw [chainBlocks_index pl m, if_neg (by push_cast at hbig ⊢; omega)]
  · rintro rfl
    rfl

theorem C2_witness :
    (buildChain plW 2 = .ok (chainOf plW 2)) ∧ 0 < 2 ∧
    ((-1 : Int) < 0 ∨ ((2 : Nat) : Int) ≤ -1) ∧
    (chainOf plW 2).get_block_by_index (-1) false (2 + 1) = .error .range :=
  ⟨buildChain_eq plW 2, by omega, Or.inl (by omega),
    (C2_range_error_behavior plW 2 (chainOf plW 2) (buildChain_eq plW 2)
      (-1)).1 (by omega) (Or.inl (by omega))⟩

/-- Target indices of a block's fingers, as a set. -/
def fingerTargets (b : Block) : Finset Int := (b.fingers.map Prod.fst).toFinset

theorem chainCache_mem (pl : Nat → Payload) :
    ∀ {N : Nat} {e : Hash × Block}, e ∈ chainCache pl N →
      ∃ j, j < N ∧ e = ((chainBlocks pl j).hid, chainBlocks pl j) := by
  intro N
  induction N with
  | zero => intro e he; simp [chainCache] at he
  | succ n ih =>
    intro e he
    rw [chainCache] at he
    rcases List.mem_cons.mp he with h | h
    · exact ⟨n, Nat.lt_succ_self n, h⟩
    · obtain ⟨j, hj, he'⟩ := ih h
      exact ⟨j, by omega, he'⟩

theorem chainCache_mem_of_lt (pl : Nat → Payload) {j N : Nat} (h : j < N) :
    ((chainBlocks pl j).hid, chainBlocks pl j) ∈ chainCache pl N := by
  induction N with
  | zero => omega
  | succ n ih =>
    rw [chainCache]
    by_cases hj : j = n
    · subst hj; exact List.mem_cons_self _ _
    · exact List.mem_cons_of_mem _ (ih (by omega))

theorem fingerTargets_filter (l : List (Int × Hash)) (s : Finset Int) :
    ((l.filter (fun f => decide (f.1 ∈ s))).map Prod.fst).toFinset =
      (l.map Prod.fst).toFinset ∩ s := by
  ext x
  simp only [List.mem_toFinset, List.mem_map, List.mem_filter,
    Finset.mem_inter, decide_eq_true_eq]
  constructor
  · rintro ⟨a, ⟨hal, has⟩, rfl⟩
    exact ⟨⟨a, hal, rfl⟩, has⟩
  · rintro ⟨⟨a, hal, rfl⟩, hxs⟩
    exact ⟨a, ⟨hal, hxs⟩, rfl⟩

theorem fingerTargets_chainBlocks (pl : Nat → Payload) (k : Nat) :
    fingerTargets (chainBlocks pl (k + 1)) =
      insert ((k : Nat) : Int)
        (fingerTargets (chainBlocks pl k) ∩
          Block.skipchain_indices (((k : Nat) : Int) + 1)) := by
  rw [fingerTargets, chainBlocks_fingers]
  rw [List.map_cons, List.toFinset_cons, fingerTargets_filter]
  rfl

/-- C3: in a chain built solely via `make_next_block` and commit, every
committed block at index `k > 0` has finger target indices equal to
`skipchain_indices(k)` intersected with the indices reachable from its
predecessor's fingers, namely `{k-1}` united with the predecessor's finger
targets lying in `skipchain_indices(k)`; the predecessor is the block
committed at index `k - 1`. -/
theorem C3_committed_finger_targets (pl : Nat → Payload) (N : Nat) (c : Chain)
    (hc : buildChain pl N = .ok c) :
    ∀ e ∈ c.cache, ∀ k : Nat, 0 < k → e.2.index = (k : Int) →
      ∃ e' ∈ c.cache,
        e' = ((chainBlocks pl (k - 1)).hid, chainBlocks pl (k - 1)) ∧
        e'.2.index = (k : Int) - 1 ∧
        fingerTargets e.2 =
          Block.skipchain_indices (k : Int) ∩
            (insert ((k : Int) - 1)
              (fingerTargets e'.2 ∩ Block.skipchain_indices (k : Int))) := by
  obtain rfl : chainOf pl N = c := by
    rw [buildChain_eq] at hc; exact Except.ok.inj hc
  intro e he k hk hidx
  obtain ⟨j, hjN, rfl⟩ := chainCache_mem pl he
  have hj : j = k := by
    have hji := chainBlocks_index pl j
    rw [hji] at hidx
    exact_mod_cast hidx
  subst hj
  obtain ⟨m, rfl⟩ : ∃ m, j = m + 1 := ⟨j - 1, by omega⟩
  refine ⟨((chainBlocks pl m).hid, chainBlocks pl m),
    chainCache_mem_of_lt pl (by omega), by simp, ?_, ?_⟩
  · rw [chainBlocks_index pl m]; push_cast; ring
  · have hcast : ((m + 1 : Nat) : Int) = ((m : Nat) : Int) + 1 := by push_cast; ring
    have hcast1 : ((m : Nat) : Int) + 1 - 1 = ((m : Nat) : Int) := by ring
    have ha : ((m : Nat) : Int) ∈
        Block.skipchain_indices (((m : Nat) : Int) + 1) := by
      have h := skipchain_self_mem (((m : Nat) : Int) + 1)
      simpa using h
    rw [fingerTargets_chainBlocks, hcast, hcast1]
    ext x
    simp only [Finset.mem_insert, Finset.mem_inter]
    constructor
    · rintro (rfl | ⟨hxT, hxS⟩)
      · exact ⟨ha, Or.inl rfl⟩
      · exact ⟨hxS, Or.inr ⟨hxT, hxS⟩⟩
    · rintro ⟨hxS, rfl | ⟨hxT, _⟩⟩
      · exact Or.inl rfl
      · exact Or.inr ⟨hxT, hxS⟩

theorem C3_witness :
    (buildChain plW 2 = .ok (chainOf plW 2)) ∧
    ((chainBlocks plW 1).hid, chainBlocks plW 1) ∈ (chainOf plW 2).cache ∧
    0 < 1 ∧ (chainBlocks plW 1).index = ((1 : Nat) : Int) ∧
    ∃ e' ∈ (chainOf plW 2).cache,
      e' = ((chainBlocks plW 0).hid, chainBlocks plW 0) ∧
      e'.2.index = ((1 : Nat) : Int) - 1 ∧
      fingerTargets (chainBlocks plW 1) =
        Block.skipchain_indices ((1 : Nat) : Int) ∩
          (insert (((1 : Nat) : Int) - 1)
            (fingerTargets e'.2 ∩ Block.skipchain_indices ((1 : Nat) : Int))) :=
  ⟨buildChain_eq plW 2, chainCache_mem_of_lt plW (by omega), by omega,
    chainBlocks_index plW 1,
    C3_committed_finger_targets plW 2 (chainOf plW 2) (buildChain_eq plW 2)
      ((chainBlocks plW 1).hid, chainBlocks plW 1)
      (chainCache_mem_of_lt plW (by omega)) 1 (by omega)
      (chainBlocks_index plW 1)⟩

theorem evSeg_head (pl : Nat → Payload) (t d : Nat) :
    (evSeg pl t d).head? =
      some ((chainBlocks pl (t + d)).hid, chainBlocks pl (t + d)) := by
  cases d <;> rfl

theorem evSeg_chain_lt (pl : Nat → Payload) (t d : Nat) :
    (evSeg pl t d).Chain' (fun p q => q.2.index < p.2.index) := by
  induction d with
  | zero => simp [evSeg]
  | succ d ih =>
    rw [evSeg, List.chain'_cons']
    refine ⟨?_, ih⟩
    intro y hy
    rw [evSeg_head] at hy
    cases hy
    rw [chainBlocks_index, chainBlocks_index]
    exact_mod_cast Nat.lt_succ_self (t + d)

theorem evSeg_ge (pl : Nat → Payload) (t d : Nat) :
    ∀ e ∈ evSeg pl t d, (t : Int) ≤ e.2.index := by
  induction d with
  | zero =>
    intro e he
    rw [evSeg] at he
    rcases List.mem_singleton.mp he with rfl
    rw [chainBlocks_index]
  | succ d ih =>
    intro e he
    rw [evSeg] at he
    rcases List.mem_cons.mp he with rfl | h
    · rw [chainBlocks_index]
      exact_mod_cast Nat.le_add_right t (d + 1)
    · exact ih e h

/-- C7: on a chain built solely via `make_next_block` and commit and any
valid target index, the traversal loop of `get_block_by_index` terminates
with the target block (no fuel exhaustion with loop bound `N + 1`), and the
indices of the visited blocks strictly decrease on every hop while staying
at least the target index. -/
theorem C7_traversal_terminates (pl : Nat → Payload) (N i : Nat) (c : Chain)
    (hc : buildChain pl N = .ok c) (hiN : i < N) :
    ∃ b ev c', c.get_block_by_index (i : Int) true (N + 1) =
        .ok (.foundEv b ev, c') ∧
      b.index = (i : Int) ∧
      ev.Chain' (fun p q => q.2.index < p.2.index) ∧
      ∀ e ∈ ev, (i : Int) ≤ e.2.index := by
  obtain rfl : chainOf pl N = c := by
    rw [buildChain_eq] at hc; exact Except.ok.inj hc
  refine ⟨chainBlocks pl i, evSeg pl i (N - 1 - i), chainOf pl N, ?_,
    chainBlocks_index pl i, evSeg_chain_lt pl i (N - 1 - i),
    evSeg_ge pl i (N - 1 - i)⟩
  have h := get_block_by_index_chainOf pl hiN true (Nat.le_succ N)
  simpa [mkOut] using h

theorem C7_witness :
    (buildChain plW 3 = .ok (chainOf plW 3)) ∧ 1 < 3 ∧
    ∃ b ev c', (chainOf plW 3).get_block_by_index ((1 : Nat) : Int) true (3 + 1) =
        .ok (.foundEv b ev, c') ∧
      b.index = ((1 : Nat) : Int) ∧
      ev.Chain' (fun p q => q.2.index < p.2.index) ∧
      ∀ e ∈ ev, ((1 : Nat) : Int) ≤ e.2.index :=
  ⟨buildChain_eq plW 3, by omega,
    C7_traversal_terminates plW 3 1 (chainOf plW 3) (buildChain_eq plW 3)
      (by omega)⟩

/-- A store seeded solely with the serialized entries of an evidence map,
keyed as the evidence map is keyed (as the replay test in the source does). -/
def seedStore (ev : List (Hash × Block)) : StoreBackend :=
  ev.map (fun e => (e.1, e.2.serialize))

/-- A fresh chain for replaying a lookup: same head hash, empty cache, store
holding only the serialized evidence. -/
def replayChain (head : Option Hash) (ev : List (Hash × Block)) : Chain :=
  { object_store := seedStore ev, cache := [], head := head }

theorem seedStore_evSeg_lookup (pl : Nat → Payload) (t : Nat) :
    ∀ (d : Nat) {j : Nat}, t ≤ j → j ≤ t + d →
      alist_get (chainBlocks pl j).hid (seedStore (evSeg pl t d)) =
        some (chainBlocks pl j).serialize := by
  intro d
  induction d with
  | zero =>
    intro j hlo hhi
    obtain rfl : j = t := by omega
    simp [seedStore, evSeg, alist_get, Block.hid]
  | succ d ih =>
    intro j hlo hhi
    rw [evSeg]
    simp only [seedStore, List.map_cons]
    by_cases hj : j = t + d + 1
    · subst hj
      simp [alist_get, Block.hid]
    · have hne : (chainBlocks pl j).hid ≠ (chainBlocks pl (t + d + 1)).hid :=
        fun h => hj (chainBlocks_hid_inj pl h)
      rw [alist_get, if_neg hne]
      exact ih hlo (by omega)

/-- Invariant maintained by the replay chain state: the store is exactly the
seeded evidence and the cache holds only correct built blocks under their own
hashes. -/
def replayInv (pl : Nat → Payload) (t d : Nat) (cc : Chain) : Prop :=
  cc.object_store = seedStore (evSeg pl t d) ∧
  ∀ e ∈ cc.cache, ∃ j, t ≤ j ∧ j ≤ t + d ∧
    e = ((chainBlocks pl j).hid, chainBlocks pl j)

theorem replay_cache_lookup (pl : Nat → Payload) {t d : Nat}
    {cache : List (Hash × Block)}
    (hcache : ∀ e ∈ cache, ∃ j, t ≤ j ∧ j ≤ t + d ∧
      e = ((chainBlocks pl j).hid, chainBlocks pl j)) (k : Nat) :
    alist_get (chainBlocks pl k).hid cache = none ∨
    alist_get (chainBlocks pl k).hid cache = some (chainBlocks pl k) := by
  induction cache with
  | nil => exact Or.inl rfl
  | cons e rest ih =>
    obtain ⟨j, _, _, rfl⟩ := hcache e (List.mem_cons_self _ _)
    by_cases hk : (chainBlocks pl k).hid = (chainBlocks pl j).hid
    · obtain rfl : k = j := chainBlocks_hid_inj pl hk
      right
      rw [alist_get, if_pos rfl]
    · rw [alist_get, if_neg hk]
      exact ih fun e he => hcache e (List.mem_cons_of_mem _ he)

theorem replay_fetch (pl : Nat → Payload) (t d : Nat) :
    ∀ cc j, replayInv pl t d cc → t ≤ j → j < t + d + 1 →
      ∃ cc', cc.get_block_by_hid (chainBlocks pl j).hid =
        .ok (some (chainBlocks pl j), cc') ∧ replayInv pl t d cc' ∧
        cc'.head = cc.head := by
  rintro cc j ⟨hstore, hcache⟩ hlo hhi
  rcases replay_cache_lookup pl hcache j with hmiss | hhit
  · refine ⟨{ cc with
      cache := ((chainBlocks pl j).hid, chainBlocks pl j) :: cc.cache },
      ?_, ⟨hstore, ?_⟩, rfl⟩
    · rw [Chain.get_block_by_hid, hmiss, hstore]
      rw [DictionaryStore.get, seedStore_evSeg_lookup pl t d hlo (by omega)]
      have hch : check_hash (chainBlocks pl j).hid
          (chainBlocks pl j).serialize = .ok () := by
        rw [check_hash, if_neg]
        exact fun h => h rfl
      simp only []
      rw [if_pos trivial, hch]
      simp only []
      rw [deserialize_serialize]
    · rintro e he
      rcases List.mem_cons.mp he with rfl | he'
      · exact ⟨j, hlo, by omega, rfl⟩
      · exact hcache e he'
  · exact ⟨cc, by rw [Chain.get_block_by_hid, hhit], ⟨hstore, hcache⟩, rfl⟩

/-- C6: evidence completeness.  For a chain built by committing `N` blocks
and a valid index, if `get_block_by_index(idx, return_evidence=true)`
returns `(block, evidence)`, then replaying `get_block_by_index(idx)` on a
fresh chain with the same head hash, an empty cache, and a store holding
only the serialized evidence entries yields a block with the same content
hash, with integrity checking succeeding on every store fetch (any
integrity failure would surface as an error outcome instead of a block). -/
theorem C6_evidence_completeness (pl : Nat → Payload) (N i : Nat)
    (c c' : Chain) (b : Block) (ev : List (Hash × Block))
    (hc : buildChain pl N = .ok c) (hiN : i < N)
    (hrun : c.get_block_by_index (i : Int) true (N + 1) =
      .ok (.foundEv b ev, c')) :
    ∃ b2 c2, (replayChain c.head ev).get_block_by_index (i : Int) false (N + 1) =
        .ok (.found b2, c2) ∧ b2.hid = b.hid := by
  obtain rfl : chainOf pl N = c := by
    rw [buildChain_eq] at hc; exact Except.ok.inj hc
  have hmaster := get_block_by_index_chainOf pl hiN true (Nat.le_succ N)
  rw [hmaster] at hrun
  simp only [mkOut, if_true] at hrun
  have h1 := Except.ok.inj hrun
  rw [Prod.mk.injEq] at h1
  obtain ⟨hout, -⟩ := h1
  injection hout with hb hev
  subst hb
  subst hev
  obtain ⟨m, rfl⟩ : ∃ m, N = m + 1 := ⟨N - 1, by omega⟩
  have hseg : (m + 1) - 1 - i = m - i := by omega
  rw [hseg]
  have hle_m : i ≤ m := by omega
  -- strengthened loop invariant: replay invariant plus a fixed head pointer
  have hPfetch : ∀ cc j,
      (replayInv pl i (m - i) cc ∧ cc.head = some (chainBlocks pl m).hid) →
      i ≤ j → j < m + 1 →
      ∃ cc', cc.get_block_by_hid (chainBlocks pl j).hid =
        .ok (some (chainBlocks pl j), cc') ∧
        (replayInv pl i (m - i) cc' ∧ cc'.head = some (chainBlocks pl m).hid) := by
    rintro cc j ⟨hinv, hhd⟩ hlo hhi
    obtain ⟨cc', heq, hinv', hhd'⟩ :=
      replay_fetch pl i (m - i) cc j hinv hlo (by omega)
    exact ⟨cc', heq, hinv', hhd'.trans hhd⟩
  have hP0 : replayInv pl i (m - i)
        (replayChain (some (chainBlocks pl m).hid) (evSeg pl i (m - i))) ∧
      (replayChain (some (chainBlocks pl m).hid)
        (evSeg pl i (m - i))).head = some (chainBlocks pl m).hid :=
    ⟨⟨rfl, by rintro e he; simp [replayChain] at he⟩, rfl⟩
  obtain ⟨cc1, hfetch1, hP1⟩ := hPfetch _ m hP0 hle_m (by omega)
  obtain ⟨cc2, hfetch2, hP2⟩ := hPfetch cc1 m hP1 hle_m (by omega)
  obtain ⟨cc', hloop, -⟩ := getLoop_run pl
    (fun cc => replayInv pl i (m - i) cc ∧
      cc.head = some (chainBlocks pl m).hid) i (m + 1)
    hPfetch (m - i) (by omega) cc2 false [] (m + 2) hP2 (by omega)
  have him : i + (m - i) = m := by omega
  rw [him] at hloop
  refine ⟨chainBlocks pl i, cc', ?_, rfl⟩
  have hhead : (chainOf pl (m + 1)).head = some (chainBlocks pl m).hid := rfl
  rw [hhead]
  simp only [Chain.get_block_by_index, replayChain]
  rw [if_pos (Int.ofNat_nonneg i)]
  have hhb1 : Chain.head_block
      { object_store := seedStore (evSeg pl i (m - i)), cache := [],
        head := some (chainBlocks pl m).hid } =
      .ok (some (chainBlocks pl m), cc1) := hfetch1
  rw [hhb1]
  simp only []
  rw [chainBlocks_index pl m, if_pos (by exact_mod_cast hle_m)]
  have hhb2 : cc1.head_block = .ok (some (chainBlocks pl m), cc2) := by
    rw [Chain.head_block, hP1.2]
    exact hfetch2
  rw [hhb2]
  simp only []
  rw [hloop]
  simp [mkOut]

theorem C6_witness :
    (buildChain plW 2 = .ok (chainOf plW 2)) ∧ 0 < 2 ∧
    ((chainOf plW 2).get_block_by_index ((0 : Nat) : Int) true (2 + 1) =
      .ok (.foundEv (chainBlocks plW 0) (evSeg plW 0 1), chainOf plW 2)) ∧
    ∃ b2 c2,
      (replayChain (chainOf plW 2).head (evSeg plW 0 1)).get_block_by_index
          ((0 : Nat) : Int) false (2 + 1) = .ok (.found b2, c2) ∧
        b2.hid = (chainBlocks plW 0).hid := by
  have hrun : (chainOf plW 2).get_block_by_index ((0 : Nat) : Int) true (2 + 1) =
      .ok (.foundEv (chainBlocks plW 0) (evSeg plW 0 1), chainOf plW 2) := by
    have h := get_block_by_index_chainOf plW (show (0 : Nat) < 2 by omega) true
      (show 2 ≤ 2 + 1 by omega)
    simpa [mkOut] using h
  exact ⟨buildChain_eq plW 2, by omega, hrun,
    C6_evidence_completeness plW 2 0 (chainOf plW 2) (chainOf plW 2)
      (chainBlocks plW 0) (evSeg plW 0 1) (buildChain_eq plW 2) (by omega) hrun⟩

end Hippiehug
